import Mathlib

/-!
Shallow embedding of the hangman-strategy evaluator (`src/main.rs`).

Words are lists of byte values (`List Nat`); partial operations that can
panic in the source (out-of-bounds indexing, failed assertions, `unwrap`)
are modelled with `Option`.
-/

namespace WeirdGame

/-- A byte is a lowercase ASCII letter (`b.is_ascii_lowercase()` in the source). -/
def isLower (b : Nat) : Bool := decide (97 ≤ b) && decide (b ≤ 122)

/-- `Word` mirrors `struct Word { len: u8, idx: usize }`: the index of a word
in the list, as a (length, index-within-bucket) pair. -/
structure Word where
  len : Nat
  idx : Nat
deriving DecidableEq

/-- `WordList` mirrors `struct WordList { word_data: Vec<Vec<u8>>, total_words: usize }`:
bucket `i` holds the concatenated bytes of all words of length `i+1`. -/
structure WordList where
  word_data : List (List Nat)
  total_words : Nat
deriving DecidableEq

/-- `WordList::new`. -/
def WordList.new : WordList := ⟨[], 0⟩

/-- `WordList::count_with_length`: `self.word_data[len - 1].len() / len`.
The indexing panics (here: `none`) when `len = 0` (usize underflow) or when no
bucket with that index exists. -/
def WordList.count_with_length (wl : WordList) (len : Nat) : Option Nat :=
  if len = 0 then none
  else
    match wl.word_data.get? (len - 1) with
    | none => none
    | some bucket => some (bucket.length / len)

/-- The byte-pushing loop of `WordList::insert`: pushes bytes one at a time,
stopping at the first byte that fails `assert!(b.is_ascii_lowercase())`.
Returns the bucket as mutated so far and whether every byte was accepted. -/
def pushLoop (bucket : List Nat) : List Nat → List Nat × Bool
  | [] => (bucket, true)
  | b :: rest => if isLower b then pushLoop (bucket ++ [b]) rest else (bucket, false)

/-- The bucket-creating loop of `WordList::insert`:
`while self.word_data.len() < len { self.word_data.push(Vec::new()); }`. -/
def padTo (bs : List (List Nat)) (len : Nat) : List (List Nat) :=
  bs ++ List.replicate (len - bs.length) []

/-- `WordList::insert`. Returns the handle (or `none` on a failed assertion)
together with the resulting state: the length assertion fails before any
mutation, while a non-lowercase byte fails after the buckets were extended and
the lowercase prefix was already pushed. -/
def WordList.insert (wl : WordList) (word : List Nat) : Option Word × WordList :=
  let len := word.length
  if 0 < len ∧ len < 30 then
    let wd := padTo wl.word_data len
    let bucket := wd.getD (len - 1) []
    let idx := bucket.length / len
    match pushLoop bucket word with
    | (bucket', true) => (some ⟨len, idx⟩, ⟨wd.set (len - 1) bucket', wl.total_words + 1⟩)
    | (bucket', false) => (none, ⟨wd.set (len - 1) bucket', wl.total_words⟩)
  else (none, wl)

/-- `WordList::get`: the slice `&self.word_data[len - 1][len * idx .. len * (idx + 1)]`;
`none` models the panics of the two indexing operations. -/
def WordList.get (wl : WordList) (w : Word) : Option (List Nat) :=
  if w.len = 0 then none
  else
    match wl.word_data.get? (w.len - 1) with
    | none => none
    | some bucket =>
      if w.len * (w.idx + 1) ≤ bucket.length then
        some ((bucket.drop (w.len * w.idx)).take w.len)
      else none

/-- The bucket walk of `WordList::random`: scan buckets in length order,
accumulating word counts, until the bucket containing `idx` is reached;
falling off the end is the `unreachable!()` branch. -/
def walk : List (List Nat) → Nat → Nat → Nat → Option Word
  | [], _, _, _ => none
  | bucket :: rest, i, so_far, idx =>
    let len := i + 1
    let words := bucket.length / len
    let so_far' := so_far + words
    if idx < so_far' then some ⟨len, idx - (so_far' - words)⟩
    else walk rest (i + 1) so_far' idx

/-- `WordList::random` with the generator's uniform draw exposed as an entropy
value `r`: `rng.gen_range(0, self.total_words)` panics (here: `none`) when
`total_words = 0`, and otherwise yields a value in `[0, total_words)`,
modelled as `r % total_words`. -/
def WordList.random (wl : WordList) (r : Nat) : Option Word :=
  if wl.total_words = 0 then none
  else walk wl.word_data 0 0 (r % wl.total_words)

/-- Well-formedness of a `WordList`, as documented in the data model: every
bucket's size is a multiple of its word length, every stored byte is a
lowercase letter, and `total_words` is the sum of per-bucket word counts. -/
def totalCnt : List (List Nat) → Nat → Nat
  | [], _ => 0
  | b :: rest, i => b.length / (i + 1) + totalCnt rest (i + 1)

/-- Sum of the word counts of the first `j` buckets (word lengths offset by `i`). -/
def prefixCnt : List (List Nat) → Nat → Nat → Nat
  | _, _, 0 => 0
  | [], _, _ + 1 => 0
  | b :: rest, i, j + 1 => b.length / (i + 1) + prefixCnt rest (i + 1) j

def Wf (wl : WordList) : Prop :=
  (∀ i < wl.word_data.length, (i + 1) ∣ (wl.word_data.getD i []).length) ∧
  (∀ i < wl.word_data.length, ∀ b ∈ wl.word_data.getD i [], isLower b = true) ∧
  wl.total_words = totalCnt wl.word_data 0

instance (wl : WordList) : Decidable (Wf wl) := by
  unfold Wf; infer_instance

/-- The handle invariant documented for `Word`: a length with an existing
bucket and an index below that length's word count. -/
def ValidHandle (wl : WordList) (h : Word) : Prop :=
  1 ≤ h.len ∧ h.len - 1 < wl.word_data.length ∧
    h.idx < (wl.word_data.getD (h.len - 1) []).length / h.len

instance (wl : WordList) (h : Word) : Decidable (ValidHandle wl h) := by
  unfold ValidHandle; infer_instance

/-- `HonestExecutioner`: the chosen word plus the wrong-guess counter. -/
structure HonestExecutioner where
  word : Word
  wrong_guesses : Nat
deriving DecidableEq

/-- `HonestExecutioner::init`. -/
def HonestExecutioner.init (w : Word) : HonestExecutioner := ⟨w, 0⟩

/-- The 0-based positions at which `letter` occurs in `w`, ascending: the
contents of `idxs` after `HonestExecutioner::guess`'s push loop. -/
def positionsOf (w : List Nat) (letter : Nat) : List Nat :=
  (List.range w.length).filter (fun i => w.getD i 0 == letter)

/-- `HonestExecutioner::guess`: clears the buffer, pushes the occurrence
positions of `letter` in the chosen word in ascending order, and bumps the
wrong-guess counter exactly when no position was pushed. `none` models the
panic of `words.get(self.word)` on an invalid handle. -/
def HonestExecutioner.guess (e : HonestExecutioner) (wl : WordList) (letter : Nat) :
    Option (List Nat × HonestExecutioner) :=
  match wl.get e.word with
  | none => none
  | some w =>
    let idxs := positionsOf w letter
    some (idxs, ⟨e.word, e.wrong_guesses + if idxs.isEmpty then 1 else 0⟩)

/-- The shared play loop of `RandomStrategy::play` and `SimpleStrategy::play`:
take letters from `order` front-to-back while fewer than `wordLen` positions
have been revealed; running out of letters models the `pop().unwrap()` /
`OPTIMAL_ORDER[i]` panic, and the trailing check models
`assert_eq!(guessed_letters, word_len)`.  Returns the final executioner and
the trace of (letter, returned occurrence list) pairs. -/
def playOrder (wl : WordList) (wordLen : Nat) :
    List Nat → HonestExecutioner → Nat → Option (HonestExecutioner × List (Nat × List Nat))
  | order, e, guessed =>
    if wordLen ≤ guessed then
      if guessed = wordLen then some (e, []) else none
    else
      match order with
      | [] => none
      | c :: rest =>
        match e.guess wl c with
        | none => none
        | some (idxs, e') =>
          match playOrder wl wordLen rest e' (guessed + idxs.length) with
          | none => none
          | some (e'', tr) => some (e'', (c, idxs) :: tr)

/-- `static OPTIMAL_ORDER: [u8; 26] = *b"eiaorntslcupmdhygbfvkwzxqj";` -/
def OPTIMAL_ORDER : List Nat :=
  [101, 105, 97, 111, 114, 110, 116, 115, 108, 99, 117, 112, 109, 100, 104,
   121, 103, 98, 102, 118, 107, 119, 122, 120, 113, 106]

/-- The letters `b'a'..=b'z'`. -/
def lettersList : List Nat := List.range' 97 26

/-- `SimpleStrategy::play` against an `HonestExecutioner`: guesses along the
fixed `OPTIMAL_ORDER`, ignoring the supplied randomness source (`_rng`). -/
def simplePlay (R : Type) (_rng : R) (wl : WordList) (e : HonestExecutioner) :
    Option (HonestExecutioner × List (Nat × List Nat)) :=
  playOrder wl e.word.len OPTIMAL_ORDER e 0

/-- `RandomStrategy::play` with the shuffle outcome exposed: the strategy
guesses the letters of the shuffled vector, popped from its back. -/
def randomPlay (shuffled : List Nat) (wl : WordList) (e : HonestExecutioner) :
    Option (HonestExecutioner × List (Nat × List Nat)) :=
  playOrder wl e.word.len shuffled.reverse e 0

/-- Fold step of Rust's `Iterator::max_by_key`: a later element replaces the
current maximum when its key is at least as large (ties pick the last). -/
def maxStep (f : Nat → Nat) (acc : Option (Nat × Nat)) (p : Nat × Nat) : Option (Nat × Nat) :=
  match acc with
  | none => some p
  | some q => if f q.2 ≤ f p.2 then some p else some q

def maxAux (f : Nat → Nat) : Option (Nat × Nat) → List (Nat × Nat) → Option (Nat × Nat)
  | acc, [] => acc
  | acc, p :: rest => maxAux f (maxStep f acc p) rest

/-- `self.remaining_letters.iter().copied().enumerate().max_by_key(|(_, c)| key c)`:
the (index, letter) pair of the last letter with maximal key, `none` on an
empty list (where the source's `unwrap()` panics). -/
def maxByKeyLast (f : Nat → Nat) (l : List Nat) : Option (Nat × Nat) :=
  maxAux f none l.enum

/-- `Vec::swap_remove(i)`: overwrite position `i` with the last element and
pop the last element. -/
def swapRemove (l : List Nat) (i : Nat) : List Nat :=
  match l.getLast? with
  | none => l
  | some last => (l.set i last).dropLast

/-- One candidate word is readable and entirely lowercase; `EpicStrategy`'s
frequency pass panics otherwise (word lookup / `letter - b'a'` indexing). -/
def candOkB (wl : WordList) (wordLen idx : Nat) : Bool :=
  match wl.get ⟨wordLen, idx⟩ with
  | some w => w.all isLower
  | none => false

/-- Whether candidate word `idx` contains letter `c` at least once. -/
def letterIn (wl : WordList) (wordLen idx c : Nat) : Bool :=
  match wl.get ⟨wordLen, idx⟩ with
  | some w => w.contains c
  | none => false

/-- The per-letter count, over the candidate set, of candidate words containing
the letter at least once (the `letter_frequencies` table). -/
def letterFreq (wl : WordList) (wordLen : Nat) (cands : Finset ℕ) (c : Nat) : Nat :=
  (cands.filter (fun idx => letterIn wl wordLen idx c = true)).card

/-- The retention test of `EpicStrategy`'s `candidates.retain`: every position
of the candidate word matches the guess's positional signature exactly. -/
def matchesSig (wl : WordList) (wordLen idx g : Nat) (idxs : List Nat) : Bool :=
  match wl.get ⟨wordLen, idx⟩ with
  | none => false
  | some w => w.enum.all (fun p => (decide (p.2 = g)) == idxs.contains p.1)

/-- The loop state of `EpicStrategy::play`, with the trace of
(guessed letter, returned occurrence list) pairs recorded. -/
structure EpicState where
  candidates : Finset ℕ
  remaining : List Nat
  exec : HonestExecutioner
  trace : List (Nat × List Nat)
deriving DecidableEq

/-- One iteration of `EpicStrategy::play`'s loop body: compute letter
frequencies over the candidates, guess the not-yet-guessed letter with the
maximal count (last wins on ties), remove it via `swap_remove`, query the
executioner, and filter the candidate set by the positional signature. -/
def epicStep (wl : WordList) (wordLen : Nat) (s : EpicState) : Option EpicState :=
  if ∀ idx ∈ s.candidates, candOkB wl wordLen idx = true then
    match maxByKeyLast (letterFreq wl wordLen s.candidates) s.remaining with
    | none => none
    | some (i, g) =>
      match s.exec.guess wl g with
      | none => none
      | some (idxs, e') =>
        some ⟨s.candidates.filter (fun idx => matchesSig wl wordLen idx g idxs = true),
              swapRemove s.remaining i, e', s.trace ++ [(g, idxs)]⟩
  else none

/-- `while self.candidates.len() > 1 { ... }` followed by
`assert_eq!(self.candidates.len(), 1)`, with a fuel bound that the loop can
never exhaust (each iteration consumes one of the 26 letters). -/
def epicLoop (wl : WordList) (wordLen : Nat) : Nat → EpicState → Option EpicState
  | 0, _ => none
  | fuel + 1, s =>
    if s.candidates.card ≤ 1 then
      if s.candidates.card = 1 then some s else none
    else
      match epicStep wl wordLen s with
      | none => none
      | some s' => epicLoop wl wordLen fuel s'

/-- `EpicStrategy::play` against an `HonestExecutioner`: all 26 letters are
available, the candidate set starts as every index of the secret's length
bucket, and the loop runs to the assertion. -/
def epicPlay (wl : WordList) (e : HonestExecutioner) : Option EpicState :=
  match wl.count_with_length e.word.len with
  | none => none
  | some n => epicLoop wl e.word.len 27 ⟨Finset.range n, lettersList, e, []⟩

/-- The bytes of the stored word of length `L` at bucket index `idx`
(meaningful whenever the lookup succeeds). -/
def wordAt (wl : WordList) (L idx : Nat) : List Nat := (wl.get ⟨L, idx⟩).getD []

/-- The invariant of `EpicStrategy::play`'s loop, relative to a store, the
secret word's length `L`, the length-`L` word count `n`, and the secret's
bucket index: candidates are in-range and the secret is among them; the
not-yet-guessed letters are distinct lowercase letters; the number of guesses
made plus the letters remaining is 26; and every surviving candidate agrees
with the secret on the positional signature of every already-guessed letter. -/
def EpicInv (wl : WordList) (L n secretIdx : Nat) (s : EpicState) : Prop :=
  (∀ idx ∈ s.candidates, idx < n) ∧
  secretIdx ∈ s.candidates ∧
  s.remaining.Nodup ∧
  (∀ c ∈ s.remaining, isLower c = true) ∧
  s.remaining.length + s.trace.length = 26 ∧
  (∀ idx ∈ s.candidates, ∀ c, isLower c = true → c ∉ s.remaining →
    positionsOf (wordAt wl L idx) c = positionsOf (wordAt wl L secretIdx) c) ∧
  s.exec.word = ⟨L, secretIdx⟩

/-- A store built by successfully inserting the listed words in order
(the driver's set-up loop over the dictionary). -/
def buildStore (ws : List (List Nat)) : WordList :=
  ws.foldl (fun acc w => (acc.insert w).2) WordList.new

/-- The store holding exactly "cat", "car", "bat" (inserted in that order). -/
def store3 : WordList :=
  (((WordList.new.insert [99, 97, 116]).2.insert [99, 97, 114]).2.insert [98, 97, 116]).2

/-- The store holding the single word "a". -/
def store1 : WordList := (WordList.new.insert [97]).2

/-- The store holding the word "a" twice. -/
def store2 : WordList := ((WordList.new.insert [97]).2.insert [97]).2

/-- The store holding the single word "aa". -/
def storeA2 : WordList := (WordList.new.insert [97, 97]).2

/-! ### Basic lemmas about `get` and `positionsOf` -/

lemma get_eq_some_iff {wl : WordList} {v : Word} {w : List Nat} :
    wl.get v = some w ↔
      0 < v.len ∧ ∃ bucket, wl.word_data.get? (v.len - 1) = some bucket ∧
        v.len * (v.idx + 1) ≤ bucket.length ∧ w = (bucket.drop (v.len * v.idx)).take v.len := by
  unfold WordList.get
  by_cases h0 : v.len = 0
  · simp [h0]
  cases hb : wl.word_data.get? (v.len - 1) with
  | none => simp [hb, h0]
  | some bucket =>
    simp only [hb, if_neg h0]
    by_cases hle : v.len * (v.idx + 1) ≤ bucket.length
    · simp only [if_pos hle, Option.some_inj]
      constructor
      · rintro rfl
        exact ⟨Nat.pos_of_ne_zero h0, bucket, rfl, hle, rfl⟩
      · rintro ⟨-, bucket', hb', -, rfl⟩
        cases hb'
        rfl
    · simp only [if_neg hle]
      constructor
      · intro h; exact absurd h (by simp)
      · rintro ⟨-, bucket', hb', hle', rfl⟩
        cases hb'
        exact absurd hle' hle

lemma get_length {wl : WordList} {v : Word} {w : List Nat} (h : wl.get v = some w) :
    w.length = v.len := by
  obtain ⟨hpos, bucket, _, hle, rfl⟩ := get_eq_some_iff.mp h
  rw [Nat.mul_succ] at hle
  simp only [List.length_take, List.length_drop]
  omega

lemma mem_positionsOf {w : List Nat} {c p : Nat} :
    p ∈ positionsOf w c ↔ p < w.length ∧ w.getD p 0 = c := by
  simp [positionsOf, List.mem_filter, List.mem_range]

lemma positionsOf_sorted (w : List Nat) (c : Nat) :
    List.Sorted (· < ·) (positionsOf w c) :=
  (List.sorted_lt_range w.length).filter _

lemma positionsOf_length (w : List Nat) (c : Nat) :
    (positionsOf w c).length = w.count c := by
  unfold positionsOf
  induction w using List.reverseRecOn with
  | nil => simp
  | append_singleton xs x ih =>
    simp only [List.length_append, List.length_singleton]
    rw [List.range_succ, List.filter_append, List.length_append, List.count_append]
    congr 1
    · rw [← ih]
      congr 1
      apply List.filter_congr
      intro i hi
      rw [List.mem_range] at hi
      simp only [List.getD_eq_getElem?_getD, List.getElem?_append, hi, if_pos]
    · by_cases hx : x = c <;>
        simp [hx, List.getD_eq_getElem?_getD, List.getElem?_append_right, List.count_singleton]

/-- C5: `HonestExecutioner.guess` answers with exactly the ascending 0-based
occurrence positions of the guessed letter in the secret word, and increments
the wrong-guess counter exactly when there is no occurrence. -/
theorem honest_guess_positions (wl : WordList) (e : HonestExecutioner) (letter : Nat)
    (w : List Nat) (hget : wl.get e.word = some w) :
    ∃ idxs e2, e.guess wl letter = some (idxs, e2) ∧
      idxs = positionsOf w letter ∧
      List.Sorted (· < ·) idxs ∧
      (∀ p, p ∈ idxs ↔ p < w.length ∧ w.getD p 0 = letter) ∧
      e2.word = e.word ∧
      (idxs = [] → e2.wrong_guesses = e.wrong_guesses + 1) ∧
      (idxs ≠ [] → e2.wrong_guesses = e.wrong_guesses) := by
  refine ⟨positionsOf w letter,
    ⟨e.word, e.wrong_guesses + if (positionsOf w letter).isEmpty then 1 else 0⟩,
    ?_, rfl, positionsOf_sorted w letter, fun p => mem_positionsOf, rfl, ?_, ?_⟩
  · unfold HonestExecutioner.guess
    rw [hget]
  · intro h; simp [h]
  · intro h; simp [List.isEmpty_iff, h]

/-- Witness for C5 at the concrete store `{cat, car, bat}`, secret "cat",
guessed letter 'x'. -/
theorem honest_guess_positions_witness :
    ∃ idxs e2, (HonestExecutioner.init ⟨3, 0⟩).guess store3 120 = some (idxs, e2) ∧
      idxs = positionsOf [99, 97, 116] 120 ∧
      List.Sorted (· < ·) idxs ∧
      (∀ p, p ∈ idxs ↔ p < [99, 97, 116].length ∧ [99, 97, 116].getD p 0 = 120) ∧
      e2.word = (HonestExecutioner.init ⟨3, 0⟩).word ∧
      (idxs = [] → e2.wrong_guesses = (HonestExecutioner.init ⟨3, 0⟩).wrong_guesses + 1) ∧
      (idxs ≠ [] → e2.wrong_guesses = (HonestExecutioner.init ⟨3, 0⟩).wrong_guesses) :=
  honest_guess_positions store3 (HonestExecutioner.init ⟨3, 0⟩) 120 [99, 97, 116] (by decide)

/-! ### Lemmas about `insert` -/

lemma pushLoop_all_lower : ∀ (w bucket : List Nat), (∀ b ∈ w, isLower b = true) →
    pushLoop bucket w = (bucket ++ w, true)
  | [], bucket, _ => by simp [pushLoop]
  | b :: rest, bucket, h => by
    rw [pushLoop, if_pos (h b (by simp)),
      pushLoop_all_lower rest (bucket ++ [b]) (fun x hx => h x (by simp [hx]))]
    simp

lemma pushLoop_stops : ∀ (pre bucket : List Nat) (b : Nat) (rest : List Nat),
    (∀ x ∈ pre, isLower x = true) → isLower b = false →
    pushLoop bucket (pre ++ b :: rest) = (bucket ++ pre, false)
  | [], bucket, b, rest, _, hb => by simp [pushLoop, hb]
  | x :: pre, bucket, b, rest, hp, hb => by
    rw [List.cons_append, pushLoop, if_pos (hp x (by simp)),
      pushLoop_stops pre (bucket ++ [x]) b rest (fun y hy => hp y (by simp [hy])) hb]
    simp

lemma padTo_length (bs : List (List Nat)) (len : Nat) :
    (padTo bs len).length = max bs.length len := by
  simp [padTo]
  omega

lemma padTo_get?_lt {bs : List (List Nat)} {len i : Nat} (h : i < bs.length) :
    (padTo bs len).get? i = bs.get? i := by
  simp [padTo, List.get?_eq_getElem?, List.getElem?_append, h]

lemma padTo_get?_ge {bs : List (List Nat)} {len i : Nat} (h1 : bs.length ≤ i) (h2 : i < len) :
    (padTo bs len).get? i = some [] := by
  have hlt : i - bs.length < len - bs.length := by omega
  simp [padTo, List.get?_eq_getElem?, List.getElem?_append, Nat.not_lt.2 h1, hlt]

lemma padTo_getD_dvd {wl : WordList} (hwf : Wf wl) {len : Nat} (i : Nat)
    (h : i < (padTo wl.word_data len).length) :
    (i + 1) ∣ ((padTo wl.word_data len).getD i []).length := by
  rcases Nat.lt_or_ge i wl.word_data.length with hi | hi
  · have := hwf.1 i hi
    rwa [List.getD_eq_getD_get?, padTo_get?_lt hi, ← List.getD_eq_getD_get?]
  · rw [padTo_length] at h
    rw [List.getD_eq_getD_get?, padTo_get?_ge hi (by omega)]
    simp

lemma insert_valid (wl : WordList) (w : List Nat) (h1 : 0 < w.length) (h2 : w.length < 30)
    (hlow : ∀ b ∈ w, isLower b = true) :
    wl.insert w =
      (some ⟨w.length, ((padTo wl.word_data w.length).getD (w.length - 1) []).length / w.length⟩,
       ⟨(padTo wl.word_data w.length).set (w.length - 1)
          ((padTo wl.word_data w.length).getD (w.length - 1) [] ++ w),
        wl.total_words + 1⟩) := by
  have hpush := pushLoop_all_lower w ((padTo wl.word_data w.length).getD (w.length - 1) []) hlow
  unfold WordList.insert
  rw [if_pos ⟨h1, h2⟩]
  simp only [hpush]

lemma totalCnt_replicate : ∀ (m i : Nat), totalCnt (List.replicate m []) i = 0
  | 0, _ => rfl
  | m + 1, i => by simp [List.replicate_succ, totalCnt, totalCnt_replicate m (i + 1)]

lemma totalCnt_append_replicate : ∀ (bs : List (List Nat)) (i m : Nat),
    totalCnt (bs ++ List.replicate m []) i = totalCnt bs i
  | [], i, m => by simp [totalCnt, totalCnt_replicate]
  | b :: bs, i, m => by
    simp [totalCnt, totalCnt_append_replicate bs (i + 1) m]

lemma totalCnt_set : ∀ (bs : List (List Nat)) (i j : Nat) (b' : List Nat),
    j < bs.length →
    totalCnt (bs.set j b') i + (bs.getD j []).length / (i + j + 1) =
      totalCnt bs i + b'.length / (i + j + 1)
  | [], _, _, _, h => by simp at h
  | b :: bs, i, 0, b', _ => by simp [totalCnt]; omega
  | b :: bs, i, j + 1, b', h => by
    have := totalCnt_set bs (i + 1) j b' (by simpa using h)
    simp only [List.set_cons_succ, totalCnt, List.getD_cons_succ]
    have harr : i + 1 + j + 1 = i + (j + 1) + 1 := by omega
    rw [harr] at this
    omega

lemma insert_wd_length (wl : WordList) (w : List Nat) (h1 : 0 < w.length)
    (h2 : w.length < 30) (hlow : ∀ b ∈ w, isLower b = true) :
    (wl.insert w).2.word_data.length = max wl.word_data.length w.length := by
  rw [insert_valid wl w h1 h2 hlow]
  simp [padTo_length]

lemma insert_Wf (wl : WordList) (w : List Nat) (hwf : Wf wl) (h1 : 0 < w.length)
    (h2 : w.length < 30) (hlow : ∀ b ∈ w, isLower b = true) :
    Wf (wl.insert w).2 := by
  rw [insert_valid wl w h1 h2 hlow]
  set L := w.length with hL
  set wd := padTo wl.word_data L with hwd
  set bucket := wd.getD (L - 1) [] with hbucket
  have hL1 : L - 1 < wd.length := by rw [hwd, padTo_length]; omega
  have hdvd : L ∣ bucket.length := by
    have := @padTo_getD_dvd wl hwf L (L - 1) (by rw [padTo_length]; omega)
    rwa [Nat.sub_add_cancel h1] at this
  have hget_set_eq : ∀ d, (wd.set (L - 1) (bucket ++ w)).getD (L - 1) d = bucket ++ w := by
    intro d
    rw [List.getD_eq_getD_get?, List.get?_eq_getElem?, List.getElem?_set_eq_of_lt _ hL1]
    rfl
  have hget_set_ne : ∀ i d, i ≠ L - 1 → (wd.set (L - 1) (bucket ++ w)).getD i d = wd.getD i d := by
    intro i d hne
    rw [List.getD_eq_getD_get?, List.get?_eq_getElem?, List.getElem?_set_ne (fun h => hne h.symm),
      ← List.get?_eq_getElem?, ← List.getD_eq_getD_get?]
  refine ⟨?_, ?_, ?_⟩
  · intro i hi
    rw [List.length_set] at hi
    by_cases hiL : i = L - 1
    · rw [hiL, hget_set_eq]
      have hLL : L - 1 + 1 = L := by omega
      rw [hLL, List.length_append]
      exact Nat.dvd_add hdvd ⟨1, by omega⟩
    · rw [hget_set_ne i [] hiL]
      exact padTo_getD_dvd hwf i (by rw [← hwd]; exact hi)
  · intro i hi b hb
    rw [List.length_set] at hi
    by_cases hiL : i = L - 1
    · subst hiL
      rw [hget_set_eq] at hb
      rcases List.mem_append.mp hb with hb | hb
      · rcases Nat.lt_or_ge (L - 1) wl.word_data.length with hlt | hge
        · refine hwf.2.1 (L - 1) hlt b ?_
          rwa [hbucket, List.getD_eq_getD_get?, padTo_get?_lt hlt, ← List.getD_eq_getD_get?] at hb
        · rw [hbucket, List.getD_eq_getD_get?, padTo_get?_ge hge (by omega)] at hb
          simp at hb
      · exact hlow b hb
    · rw [hget_set_ne i [] hiL] at hb
      rw [hwd, padTo_length] at hi
      rcases Nat.lt_or_ge i wl.word_data.length with hlt | hge
      · refine hwf.2.1 i hlt b ?_
        rwa [List.getD_eq_getD_get?, padTo_get?_lt hlt, ← List.getD_eq_getD_get?] at hb
      · rw [List.getD_eq_getD_get?, padTo_get?_ge hge (by omega)] at hb
        simp at hb
  · have hset := totalCnt_set wd 0 (L - 1) (bucket ++ w) hL1
    have harr : 0 + (L - 1) + 1 = L := by omega
    rw [harr, ← hbucket] at hset
    have hdiv : (bucket ++ w).length / L = bucket.length / L + 1 := by
      rw [List.length_append, ← hL, Nat.add_div_right _ h1]
    rw [hdiv] at hset
    have htot : totalCnt wd 0 = totalCnt wl.word_data 0 := totalCnt_append_replicate _ _ _
    have hwt := hwf.2.2
    show wl.total_words + 1 = totalCnt (wd.set (L - 1) (bucket ++ w)) 0
    omega

/-! ### Counting words by length -/

lemma count_with_length_eq (wl : WordList) (L : Nat) (hL : 0 < L) :
    wl.count_with_length L =
      if L ≤ wl.word_data.length then some ((wl.word_data.getD (L - 1) []).length / L)
      else none := by
  unfold WordList.count_with_length
  rw [if_neg (by omega)]
  cases hb : wl.word_data.get? (L - 1) with
  | none =>
    have hge := List.get?_eq_none.mp hb
    rw [if_neg (by omega)]
  | some bucket =>
    have hlt : L - 1 < wl.word_data.length := by
      by_contra hc
      rw [List.get?_eq_none.mpr (by omega)] at hb
      exact Option.noConfusion hb
    rw [if_pos (by omega)]
    have : wl.word_data.getD (L - 1) [] = bucket := by
      rw [List.getD_eq_getD_get?, hb]
      rfl
    rw [this]

lemma insert_count (wl : WordList) (w : List Nat) (h1 : 0 < w.length) (h2 : w.length < 30)
    (hlow : ∀ b ∈ w, isLower b = true) (L : Nat) (hL : 0 < L) :
    (wl.insert w).2.count_with_length L =
      if L ≤ max wl.word_data.length w.length then
        some ((wl.count_with_length L).getD 0 + if L = w.length then 1 else 0)
      else none := by
  have hold := count_with_length_eq wl L hL
  have h2' : (wl.insert w).2 =
      ⟨(padTo wl.word_data w.length).set (w.length - 1)
        ((padTo wl.word_data w.length).getD (w.length - 1) [] ++ w), wl.total_words + 1⟩ := by
    rw [insert_valid wl w h1 h2 hlow]
  rw [h2', count_with_length_eq _ L hL]
  set wd := padTo wl.word_data w.length with hwd
  set bucket := wd.getD (w.length - 1) [] with hbucket
  have hlen : (WordList.mk (wd.set (w.length - 1) (bucket ++ w))
      (wl.total_words + 1)).word_data.length = max wl.word_data.length w.length := by
    rw [List.length_set, hwd, padTo_length]
  rw [hlen]
  rcases Nat.lt_or_ge (max wl.word_data.length w.length) L with hgt | hle
  · rw [if_neg (by omega), if_neg (by omega)]
  · rw [if_pos (by omega), if_pos (by omega)]
    have hL1wd : L - 1 < wd.length := by rw [hwd, padTo_length]; omega
    by_cases hLw : L = w.length
    · subst hLw
      have hsame : (wd.set (w.length - 1) (bucket ++ w)).getD (w.length - 1) [] = bucket ++ w := by
        rw [List.getD_eq_getD_get?, List.get?_eq_getElem?,
          List.getElem?_set_eq_of_lt _ hL1wd]
        rfl
      rw [hsame, if_pos rfl, List.length_append, Nat.add_div_right _ h1]
      congr 1
      rw [hold]
      rcases Nat.lt_or_ge (w.length - 1) wl.word_data.length with hlt | hge
      · rw [if_pos (by omega)]
        simp only [Option.getD_some]
        rw [hbucket, List.getD_eq_getD_get?, padTo_get?_lt hlt, ← List.getD_eq_getD_get?]
      · rw [if_neg (by omega)]
        simp only [Option.getD_none]
        rw [hbucket, List.getD_eq_getD_get?, padTo_get?_ge hge (by omega)]
        simp
    · have hne : (wd.set (w.length - 1) (bucket ++ w)).getD (L - 1) [] = wd.getD (L - 1) [] := by
        rw [List.getD_eq_getD_get?, List.get?_eq_getElem?,
          List.getElem?_set_ne (by omega), ← List.get?_eq_getElem?, ← List.getD_eq_getD_get?]
      rw [hne, if_neg hLw, Nat.add_zero, hold]
      rcases Nat.lt_or_ge (L - 1) wl.word_data.length with hlt | hge
      · rw [if_pos (by omega)]
        simp only [Option.getD_some]
        rw [hwd, List.getD_eq_getD_get?, padTo_get?_lt hlt, ← List.getD_eq_getD_get?]
      · rw [if_neg (by omega)]
        simp only [Option.getD_none]
        rw [hwd, List.getD_eq_getD_get?, padTo_get?_ge hge (by omega)]
        simp

lemma build_count : ∀ (ws : List (List Nat)) (wl : WordList),
    (∀ w ∈ ws, 0 < w.length ∧ w.length < 30 ∧ ∀ b ∈ w, isLower b = true) →
    ∀ L, 0 < L →
    (ws.foldl (fun acc w => (acc.insert w).2) wl).count_with_length L =
      if L ≤ (ws.foldl (fun acc w => (acc.insert w).2) wl).word_data.length then
        some ((wl.count_with_length L).getD 0 + ws.countP (fun w => decide (w.length = L)))
      else none
  | [], wl, _, L, hL => by
    simp only [List.foldl_nil, List.countP_nil, Nat.add_zero]
    rw [count_with_length_eq wl L hL]
    by_cases hc : L ≤ wl.word_data.length <;> simp [hc]
  | w :: ws, wl, hv, L, hL => by
    obtain ⟨h1, h2, hlow⟩ := hv w (by simp)
    have ih := build_count ws (wl.insert w).2 (fun x hx => hv x (by simp [hx])) L hL
    simp only [List.foldl_cons] at *
    rw [ih]
    have hstep := insert_count wl w h1 h2 hlow L hL
    have hgd : ((wl.insert w).2.count_with_length L).getD 0 =
        (wl.count_with_length L).getD 0 + if L = w.length then 1 else 0 := by
      rw [hstep]
      rcases Nat.lt_or_ge (max wl.word_data.length w.length) L with hgt | hle
      · rw [if_neg (by omega)]
        have hnone : wl.count_with_length L = none := by
          rw [count_with_length_eq wl L hL, if_neg (by omega)]
        rw [hnone, if_neg (by omega)]
        simp
      · rw [if_pos (by omega)]
        simp
    rw [hgd, List.countP_cons]
    by_cases hc : L ≤ (List.foldl (fun acc w => (acc.insert w).2) (wl.insert w).2 ws).word_data.length
    · rw [if_pos hc, if_pos hc]
      congr 1
      rcases eq_or_ne w.length L with hLw | hLw
      · rw [if_pos hLw.symm, decide_eq_true hLw, if_pos rfl]
        omega
      · rw [if_neg (Ne.symm hLw), decide_eq_false hLw, if_neg (by simp)]
        omega
    · rw [if_neg hc, if_neg hc]

/-- C3 (amended): on a store built by successful insertions,
`count_with_length(L)` returns the number of inserted words of length exactly
`L` whenever a bucket with index `L - 1` exists, and fails (out-of-bounds
bucket indexing, the source's panic) rather than returning 0 when no such
bucket exists. -/
theorem count_with_length_build (ws : List (List Nat))
    (hv : ∀ w ∈ ws, 0 < w.length ∧ w.length < 30 ∧ ∀ b ∈ w, isLower b = true)
    (L : Nat) (hL : 0 < L) :
    (buildStore ws).count_with_length L =
      if L ≤ (buildStore ws).word_data.length then
        some (ws.countP (fun w => decide (w.length = L)))
      else none := by
  have := build_count ws WordList.new hv L hL
  unfold buildStore
  simpa [WordList.new, WordList.count_with_length, Nat.pos_iff_ne_zero.mp hL] using this

/-- Witness for C3's amended theorem: in the `{cat, car, bat}` build,
`count_with_length 3` is `some 3`. -/
theorem count_with_length_build_witness :
    (buildStore [[99, 97, 116], [99, 97, 114], [98, 97, 116]]).count_with_length 3 =
      if 3 ≤ (buildStore [[99, 97, 116], [99, 97, 114], [98, 97, 116]]).word_data.length then
        some ([[99, 97, 116], [99, 97, 114], [98, 97, 116]].countP (fun w => decide (w.length = 3)))
      else none :=
  count_with_length_build [[99, 97, 116], [99, 97, 114], [98, 97, 116]] (by decide) 3 (by decide)

/-- C3 counterexample: with only the length-1 word "a" stored, the claim says
`count_with_length 2` returns 0, but the code's bucket lookup fails. -/
theorem count_with_length_missing_bucket :
    (buildStore [[97]]).count_with_length 2 = none ∧
      (buildStore [[97]]).count_with_length 2 ≠ some 0 := by
  constructor <;> decide

/-! ### Round-trip and error atomicity of `insert` -/

lemma slice_append (A B : List Nat) (i j : Nat) (h : i + j ≤ A.length) :
    ((A ++ B).drop i).take j = (A.drop i).take j := by
  rw [List.drop_append_of_le_length (by omega),
    List.take_append_of_le_length (by rw [List.length_drop]; omega)]

/-- C7: inserting a valid word into a well-formed store succeeds, `get` on the
returned handle gives back exactly the inserted bytes, every previously
readable handle still reads the same bytes afterwards, and well-formedness is
preserved. -/
theorem insert_get_roundtrip (wl : WordList) (w : List Nat) (hwf : Wf wl)
    (h1 : 0 < w.length) (h2 : w.length < 30) (hlow : ∀ b ∈ w, isLower b = true) :
    ∃ h wl', wl.insert w = (some h, wl') ∧ wl'.get h = some w ∧
      (∀ v u, wl.get v = some u → wl'.get v = some u) ∧ Wf wl' := by
  have hwf' := insert_Wf wl w hwf h1 h2 hlow
  rw [insert_valid wl w h1 h2 hlow] at hwf' ⊢
  set L := w.length with hL
  set wd := padTo wl.word_data L with hwd
  set bucket := wd.getD (L - 1) [] with hbucket
  have hL1 : L - 1 < wd.length := by rw [hwd, padTo_length]; omega
  have hdvd : L ∣ bucket.length := by
    have := @padTo_getD_dvd wl hwf L (L - 1) (by rw [padTo_length]; omega)
    rwa [Nat.sub_add_cancel h1] at this
  obtain ⟨k, hk⟩ := hdvd
  have hidx : bucket.length / L = k := by rw [hk, Nat.mul_div_cancel_left _ h1]
  refine ⟨_, _, rfl, ?_, ?_, hwf'⟩
  · rw [get_eq_some_iff]
    refine ⟨h1, bucket ++ w, ?_, ?_, ?_⟩
    · show (wd.set (L - 1) (bucket ++ w)).get? (L - 1) = some (bucket ++ w)
      rw [List.get?_eq_getElem?, List.getElem?_set_eq_of_lt _ hL1]
    · show L * (bucket.length / L + 1) ≤ (bucket ++ w).length
      rw [hidx, List.length_append, hk, ← hL]
      ring_nf
      omega
    · show w = ((bucket ++ w).drop (L * (bucket.length / L))).take L
      rw [hidx, ← hk, List.drop_left, hL, List.take_length]
  · intro v u hget
    obtain ⟨hvpos, bv, hbv, hvle, hu⟩ := get_eq_some_iff.mp hget
    have hbv_lt : v.len - 1 < wl.word_data.length := by
      by_contra hc
      rw [List.get?_eq_none.mpr (by omega)] at hbv
      exact Option.noConfusion hbv
    rw [get_eq_some_iff]
    by_cases hvL : v.len = L
    · have hbv_eq : bucket = bv := by
        rw [hbucket, List.getD_eq_getD_get?, ← hvL, padTo_get?_lt hbv_lt, hbv]
        rfl
      refine ⟨hvpos, bucket ++ w, ?_, ?_, ?_⟩
      · show (wd.set (L - 1) (bucket ++ w)).get? (v.len - 1) = some (bucket ++ w)
        rw [hvL, List.get?_eq_getElem?, List.getElem?_set_eq_of_lt _ hL1]
      · rw [List.length_append, hbv_eq]
        omega
      · rw [hu, hbv_eq]
        exact (slice_append bv w _ _ (by rw [Nat.mul_succ] at hvle; omega)).symm
    · refine ⟨hvpos, bv, ?_, hvle, hu⟩
      show (wd.set (L - 1) (bucket ++ w)).get? (v.len - 1) = some bv
      rw [List.get?_eq_getElem?, List.getElem?_set_ne (by omega), ← List.get?_eq_getElem?,
        hwd, padTo_get?_lt hbv_lt, hbv]

/-- Witness for C7: inserting "dog" into the `{cat, car, bat}` store. -/
theorem insert_get_roundtrip_witness :
    ∃ h wl', store3.insert [100, 111, 103] = (some h, wl') ∧ wl'.get h = some [100, 111, 103] ∧
      (∀ v u, store3.get v = some u → wl'.get v = some u) ∧ Wf wl' :=
  insert_get_roundtrip store3 [100, 111, 103] (by decide) (by decide) (by decide) (by decide)

/-- C10: `insert` is not atomic on a mid-word assertion failure: with a
well-formed store and a word made of a non-empty lowercase prefix followed by
a non-lowercase byte (and valid length), the call fails, `total_words` is
unchanged, but the prefix bytes have already been appended to the length
bucket, whose size is then no longer a multiple of the bucket's word length. -/
theorem insert_not_atomic (wl : WordList) (pre : List Nat) (b : Nat) (rest : List Nat)
    (hwf : Wf wl) (hpre : ∀ x ∈ pre, isLower x = true) (hpne : pre ≠ [])
    (hb : isLower b = false) (hlen : pre.length + (1 + rest.length) < 30) :
    ∃ wl', wl.insert (pre ++ b :: rest) = (none, wl') ∧
      wl'.total_words = wl.total_words ∧
      wl'.word_data.getD ((pre ++ b :: rest).length - 1) [] =
        (padTo wl.word_data (pre ++ b :: rest).length).getD ((pre ++ b :: rest).length - 1) []
          ++ pre ∧
      ¬ ((pre ++ b :: rest).length ∣
          (wl'.word_data.getD ((pre ++ b :: rest).length - 1) []).length) := by
  set L := (pre ++ b :: rest).length with hLdef
  have hLval : L = pre.length + (1 + rest.length) := by
    rw [hLdef, List.length_append, List.length_cons]
    omega
  have h1 : 0 < L := by omega
  have hprelen : 0 < pre.length := List.length_pos.mpr hpne
  set wd := padTo wl.word_data L with hwd
  set bucket := wd.getD (L - 1) [] with hbucket
  have hL1 : L - 1 < wd.length := by rw [hwd, padTo_length]; omega
  have hdvd : L ∣ bucket.length := by
    have := @padTo_getD_dvd wl hwf L (L - 1) (by rw [padTo_length]; omega)
    rwa [Nat.sub_add_cancel h1] at this
  have hpush := pushLoop_stops pre bucket b rest hpre hb
  have hins : wl.insert (pre ++ b :: rest) =
      (none, ⟨wd.set (L - 1) (bucket ++ pre), wl.total_words⟩) := by
    unfold WordList.insert
    rw [if_pos ⟨h1, by omega⟩]
    simp only [← hLdef, ← hwd, ← hbucket, hpush]
  refine ⟨_, hins, rfl, ?_, ?_⟩
  · show (wd.set (L - 1) (bucket ++ pre)).getD (L - 1) [] = bucket ++ pre
    rw [List.getD_eq_getD_get?, List.get?_eq_getElem?, List.getElem?_set_eq_of_lt _ hL1]
    rfl
  · show ¬ (L ∣ ((wd.set (L - 1) (bucket ++ pre)).getD (L - 1) []).length)
    have hsame : (wd.set (L - 1) (bucket ++ pre)).getD (L - 1) [] = bucket ++ pre := by
      rw [List.getD_eq_getD_get?, List.get?_eq_getElem?, List.getElem?_set_eq_of_lt _ hL1]
      rfl
    rw [hsame, List.length_append]
    intro hdvd'
    have hdvd2 : L ∣ pre.length := (Nat.dvd_add_right hdvd).mp hdvd'
    have := Nat.le_of_dvd hprelen hdvd2
    omega

/-- Witness for C10: inserting the bytes "aB" into the empty store. -/
theorem insert_not_atomic_witness :
    ∃ wl', WordList.new.insert ([97] ++ 66 :: []) = (none, wl') ∧
      wl'.total_words = WordList.new.total_words ∧
      wl'.word_data.getD (([97] ++ 66 :: []).length - 1) [] =
        (padTo WordList.new.word_data ([97] ++ 66 :: []).length).getD
          (([97] ++ 66 :: []).length - 1) [] ++ [97] ∧
      ¬ (([97] ++ 66 :: []).length ∣
          (wl'.word_data.getD (([97] ++ 66 :: []).length - 1) []).length) :=
  insert_not_atomic WordList.new [97] 66 [] (by decide) (by decide) (by decide)
    (by decide) (by decide)

/-! ### The bucket walk of `random` -/

lemma prefixCnt_total : ∀ (bs : List (List Nat)) (i : Nat),
    prefixCnt bs i bs.length = totalCnt bs i
  | [], i => rfl
  | b :: rest, i => by
    simp [prefixCnt, totalCnt, prefixCnt_total rest (i + 1)]

lemma prefixCnt_mono : ∀ (bs : List (List Nat)) (i j j' : Nat), j ≤ j' →
    prefixCnt bs i j ≤ prefixCnt bs i j'
  | _, _, 0, _, _ => by
    cases _h : (prefixCnt _ _ 0) with
    | zero => omega
    | succ n => simp [prefixCnt] at _h
  | [], i, j + 1, j' + 1, h => le_refl _
  | b :: rest, i, j + 1, j' + 1, h => by
    simp only [prefixCnt]
    exact Nat.add_le_add_left (prefixCnt_mono rest (i + 1) j j' (by omega)) _

lemma prefixCnt_succ : ∀ (bs : List (List Nat)) (i j : Nat), j < bs.length →
    prefixCnt bs i (j + 1) = prefixCnt bs i j + (bs.getD j []).length / (i + j + 1)
  | [], _, j, h => by simp at h
  | b :: rest, i, 0, _ => by
    simp [prefixCnt]
  | b :: rest, i, j + 1, h => by
    have ih := prefixCnt_succ rest (i + 1) j (by simpa using h)
    rw [show i + 1 + j + 1 = i + (j + 1) + 1 by omega] at ih
    simp only [prefixCnt, List.getD_cons_succ]
    rw [ih]
    omega

lemma walk_encode : ∀ (bs : List (List Nat)) (i acc j k : Nat), j < bs.length →
    k < (bs.getD j []).length / (i + j + 1) →
    walk bs i acc (acc + prefixCnt bs i j + k) = some ⟨i + j + 1, k⟩
  | [], _, _, j, _, hj, _ => by simp at hj
  | b :: rest, i, acc, 0, k, _, hk => by
    simp only [List.getD_cons_zero, Nat.add_zero] at hk
    simp only [walk, prefixCnt, Nat.add_zero]
    rw [if_pos (by omega)]
    refine congrArg some (congrArg (Word.mk (i + 1)) ?_)
    omega
  | b :: rest, i, acc, j + 1, k, hj, hk => by
    simp only [List.getD_cons_succ] at hk
    rw [show i + (j + 1) + 1 = i + 1 + j + 1 by omega] at hk ⊢
    simp only [walk, prefixCnt]
    rw [if_neg (by omega)]
    have ih := walk_encode rest (i + 1) (acc + b.length / (i + 1)) j k (by simpa using hj) hk
    rw [show acc + (b.length / (i + 1) + prefixCnt rest (i + 1) j) + k =
      acc + b.length / (i + 1) + prefixCnt rest (i + 1) j + k by omega]
    exact ih

lemma walk_decode : ∀ (bs : List (List Nat)) (i acc idx : Nat), acc ≤ idx →
    idx < acc + totalCnt bs i →
    ∃ j k, j < bs.length ∧ k < (bs.getD j []).length / (i + j + 1) ∧
      idx = acc + prefixCnt bs i j + k ∧ walk bs i acc idx = some ⟨i + j + 1, k⟩
  | [], i, acc, idx, hle, hlt => by
    simp only [totalCnt] at hlt
    omega
  | b :: rest, i, acc, idx, hle, hlt => by
    by_cases hc : idx < acc + b.length / (i + 1)
    · refine ⟨0, idx - acc, by simp, ?_, by simp [prefixCnt]; omega, ?_⟩
      · simp only [List.getD_cons_zero, Nat.add_zero]
        omega
      · simp only [walk, Nat.add_zero]
        rw [if_pos hc]
        refine congrArg some (congrArg (Word.mk (i + 1)) ?_)
        omega
    · have hlt' : idx < acc + b.length / (i + 1) + totalCnt rest (i + 1) := by
        simp only [totalCnt] at hlt
        omega
      obtain ⟨j, k, hj, hk, heq, hw⟩ :=
        walk_decode rest (i + 1) (acc + b.length / (i + 1)) idx (by omega) hlt'
      refine ⟨j + 1, k, by simpa using hj, ?_, ?_, ?_⟩
      · simp only [List.getD_cons_succ]
        rw [show i + (j + 1) + 1 = i + 1 + j + 1 by omega]
        exact hk
      · simp only [prefixCnt]
        omega
      · rw [show i + (j + 1) + 1 = i + 1 + j + 1 by omega]
        simp only [walk]
        rw [if_neg hc]
        exact hw

/-- C6: with the uniform draw `idx` in `[0, total_words)` exposed, the bucket
walk of `random` finds the bucket containing `idx` and returns the handle
whose index is `idx` minus the prefix sum of shorter-length word counts; over
a well-formed store this map is injective and onto the valid handles, so each
stored word is drawn with equal probability regardless of its length. -/
theorem random_walk_bijection (wl : WordList) (hwf : Wf wl) :
    (∀ r, 0 < wl.total_words →
        wl.random r = walk wl.word_data 0 0 (r % wl.total_words)) ∧
    (∀ idx, idx < wl.total_words → ∃ h, walk wl.word_data 0 0 idx = some h ∧
        ValidHandle wl h ∧ idx = prefixCnt wl.word_data 0 (h.len - 1) + h.idx) ∧
    (∀ idx1 idx2 h, idx1 < wl.total_words → idx2 < wl.total_words →
        walk wl.word_data 0 0 idx1 = some h → walk wl.word_data 0 0 idx2 = some h →
        idx1 = idx2) ∧
    (∀ h, ValidHandle wl h →
        ∃ idx, idx < wl.total_words ∧ walk wl.word_data 0 0 idx = some h) := by
  have htot : wl.total_words = totalCnt wl.word_data 0 := hwf.2.2
  have hdec : ∀ idx, idx < wl.total_words →
      ∃ j k, j < wl.word_data.length ∧
        k < (wl.word_data.getD j []).length / (j + 1) ∧
        idx = prefixCnt wl.word_data 0 j + k ∧
        walk wl.word_data 0 0 idx = some ⟨j + 1, k⟩ := by
    intro idx hidx
    obtain ⟨j, k, hj, hk, heq, hw⟩ :=
      walk_decode wl.word_data 0 0 idx (Nat.zero_le _) (by omega)
    exact ⟨j, k, hj, by simpa using hk, by omega, by simpa using hw⟩
  refine ⟨?_, ?_, ?_, ?_⟩
  · intro r hr
    unfold WordList.random
    rw [if_neg (by omega)]
  · intro idx hidx
    obtain ⟨j, k, hj, hk, heq, hw⟩ := hdec idx hidx
    refine ⟨⟨j + 1, k⟩, hw,
      ⟨by show 1 ≤ j + 1; omega, by simpa using hj, by simpa using hk⟩, by simpa using heq⟩
  · intro idx1 idx2 h h1 h2 hw1 hw2
    obtain ⟨j1, k1, hj1, hk1, heq1, hww1⟩ := hdec idx1 h1
    obtain ⟨j2, k2, hj2, hk2, heq2, hww2⟩ := hdec idx2 h2
    rw [hw1] at hww1
    rw [hw2] at hww2
    have hh : (⟨j1 + 1, k1⟩ : Word) = ⟨j2 + 1, k2⟩ :=
      (Option.some_injective _ hww1.symm).trans (Option.some_injective _ hww2.symm).symm
    have hlen : j1 + 1 = j2 + 1 := congrArg Word.len hh
    have hidx : k1 = k2 := congrArg Word.idx hh
    have hj12 : j1 = j2 := by omega
    subst hj12
    omega
  · intro h hv
    obtain ⟨hv1, hv2, hv3⟩ := hv
    refine ⟨prefixCnt wl.word_data 0 (h.len - 1) + h.idx, ?_, ?_⟩
    · have hstep := prefixCnt_succ wl.word_data 0 (h.len - 1) hv2
      have hmono := prefixCnt_mono wl.word_data 0 (h.len - 1 + 1) wl.word_data.length
        (by omega)
      rw [prefixCnt_total] at hmono
      have : 0 + (h.len - 1) + 1 = h.len := by omega
      rw [this] at hstep
      omega
    · have := walk_encode wl.word_data 0 0 (h.len - 1) h.idx hv2
        (by rw [show 0 + (h.len - 1) + 1 = h.len by omega]; exact hv3)
      rw [show (0 : Nat) + prefixCnt wl.word_data 0 (h.len - 1) + h.idx =
        prefixCnt wl.word_data 0 (h.len - 1) + h.idx by omega] at this
      rw [this]
      have hlen2 : 0 + (h.len - 1) + 1 = h.len := by omega
      rw [hlen2]

/-- Witness for C6 at the `{cat, car, bat}` store. -/
theorem random_walk_bijection_witness :
    (∀ r, 0 < store3.total_words →
        store3.random r = walk store3.word_data 0 0 (r % store3.total_words)) ∧
    (∀ idx, idx < store3.total_words → ∃ h, walk store3.word_data 0 0 idx = some h ∧
        ValidHandle store3 h ∧ idx = prefixCnt store3.word_data 0 (h.len - 1) + h.idx) ∧
    (∀ idx1 idx2 h, idx1 < store3.total_words → idx2 < store3.total_words →
        walk store3.word_data 0 0 idx1 = some h → walk store3.word_data 0 0 idx2 = some h →
        idx1 = idx2) ∧
    (∀ h, ValidHandle store3 h →
        ∃ idx, idx < store3.total_words ∧ walk store3.word_data 0 0 idx = some h) :=
  random_walk_bijection store3 (by decide)

/-- C9: `random` on an empty store fails at the uniform draw over the empty
range (instead of returning a handle), and on any well-formed non-empty store
it succeeds with a handle satisfying `index < count_with_length(length)`. -/
theorem random_empty_fails_nonempty_succeeds :
    (∀ (wl : WordList) (r : Nat), wl.total_words = 0 → wl.random r = none) ∧
    (∀ (wl : WordList) (r : Nat), Wf wl → 0 < wl.total_words →
      ∃ h, wl.random r = some h ∧ ValidHandle wl h ∧
        wl.count_with_length h.len =
          some ((wl.word_data.getD (h.len - 1) []).length / h.len) ∧
        h.idx < (wl.word_data.getD (h.len - 1) []).length / h.len) := by
  constructor
  · intro wl r h0
    unfold WordList.random
    rw [if_pos h0]
  · intro wl r hwf hpos
    have htot : wl.total_words = totalCnt wl.word_data 0 := hwf.2.2
    have hmod : r % wl.total_words < wl.total_words := Nat.mod_lt _ hpos
    obtain ⟨j, k, hj, hk, heq, hw⟩ :=
      walk_decode wl.word_data 0 0 (r % wl.total_words) (Nat.zero_le _) (by omega)
    have hk' : k < (wl.word_data.getD j []).length / (j + 1) := by simpa using hk
    refine ⟨⟨j + 1, k⟩, ?_,
      ⟨by show 1 ≤ j + 1; omega, by simpa using hj, by simpa using hk'⟩, ?_, by simpa using hk'⟩
    · unfold WordList.random
      rw [if_neg (by omega)]
      simpa using hw
    · rw [count_with_length_eq wl (j + 1) (by omega), if_pos (by omega)]

/-- Witness for C9: the empty store fails; the `{cat, car, bat}` store
succeeds for draw 7. -/
theorem random_empty_fails_nonempty_succeeds_witness :
    WordList.new.random 0 = none ∧
    (∃ h, store3.random 7 = some h ∧ ValidHandle store3 h ∧
      store3.count_with_length h.len =
        some ((store3.word_data.getD (h.len - 1) []).length / h.len) ∧
      h.idx < (store3.word_data.getD (h.len - 1) []).length / h.len) :=
  ⟨random_empty_fails_nonempty_succeeds.1 WordList.new 0 (by decide),
   random_empty_fails_nonempty_succeeds.2 store3 7 (by decide) (by decide)⟩

/-! ### The shared play loop of the random and frequency-table strategies -/

lemma countP_mem_cons (w : List Nat) (c : Nat) (rest : List Nat) (hc : c ∉ rest) :
    w.countP (fun x => decide (x ∈ c :: rest)) =
      w.count c + w.countP (fun x => decide (x ∈ rest)) := by
  induction w with
  | nil => simp
  | cons x xs ih =>
    rw [List.countP_cons, List.countP_cons, List.count_cons, ih]
    by_cases hx : x = c
    · subst hx
      simp [hc]
      omega
    · by_cases hr : x ∈ rest
      · simp [hx, hr]
        try omega
      · simp [hx, hr]
        try omega

lemma countP_mem_nil (w : List Nat) :
    w.countP (fun x => decide (x ∈ ([] : List Nat))) = 0 := by
  simp

lemma playOrder_spec (wl : WordList) (w : List Nat) (e0word : Word)
    (hget : wl.get e0word = some w) :
    ∀ (order : List Nat) (e : HonestExecutioner) (guessed : Nat),
      e.word = e0word → order.Nodup →
      guessed + w.countP (fun x => decide (x ∈ order)) = w.length →
      ∃ e2 tr, playOrder wl w.length order e guessed = some (e2, tr) ∧
        tr.length ≤ order.length ∧
        guessed + (tr.map (fun p => p.2.length)).sum = w.length ∧
        tr.map Prod.fst = order.take tr.length ∧
        e2.word = e0word := by
  intro order
  induction order with
  | nil =>
    intro e guessed hw _ hinv
    rw [countP_mem_nil] at hinv
    refine ⟨e, [], ?_, by simp, by simpa using hinv, by simp, hw⟩
    rw [playOrder, if_pos (by omega), if_pos (by omega)]
  | cons c rest ih =>
    intro e guessed hw hnd hinv
    by_cases hdone : w.length ≤ guessed
    · have hg : guessed = w.length := by
        have := hinv
        omega
      refine ⟨e, [], ?_, by simp, by simpa using hg, by simp, hw⟩
      rw [playOrder, if_pos hdone, if_pos hg]
    · have hguess : e.guess wl c = some (positionsOf w c,
          ⟨e.word, e.wrong_guesses + if (positionsOf w c).isEmpty then 1 else 0⟩) := by
        unfold HonestExecutioner.guess
        rw [hw, hget]
      have hcrest : c ∉ rest := (List.nodup_cons.mp hnd).1
      have hsplit := countP_mem_cons w c rest hcrest
      obtain ⟨e2, tr, hplay, hlen, hsum, hmap, hword⟩ :=
        ih ⟨e.word, e.wrong_guesses + if (positionsOf w c).isEmpty then 1 else 0⟩
          (guessed + (positionsOf w c).length) hw (List.nodup_cons.mp hnd).2
          (by rw [positionsOf_length]; omega)
      refine ⟨e2, (c, positionsOf w c) :: tr, ?_, by simpa using hlen, ?_, ?_, hword⟩
      · rw [playOrder, if_neg hdone]
        simp only [hguess, hplay]
      · simp only [List.map_cons, List.sum_cons]
        omega
      · simp only [List.map_cons, List.length_cons, List.take_succ_cons, hmap]

lemma lettersList_nodup : lettersList.Nodup := by decide

lemma lettersList_length : lettersList.length = 26 := by decide

lemma mem_lettersList {x : Nat} : x ∈ lettersList ↔ isLower x = true := by
  rw [lettersList, List.mem_range'_1, isLower]
  constructor
  · rintro ⟨h1, h2⟩
    simp only [decide_eq_true_eq, Bool.and_eq_true]
    omega
  · intro h
    simp only [decide_eq_true_eq, Bool.and_eq_true] at h
    omega

lemma playOrder_perm (wl : WordList) (e : HonestExecutioner) (w : List Nat)
    (hget : wl.get e.word = some w) (hlow : ∀ b ∈ w, isLower b = true)
    (order : List Nat) (hperm : order.Perm lettersList) :
    ∃ e2 tr, playOrder wl e.word.len order e 0 = some (e2, tr) ∧
      tr.length ≤ 26 ∧ (tr.map (fun p => p.2.length)).sum = e.word.len ∧
      tr.map Prod.fst = order.take tr.length ∧ e2.word = e.word := by
  have hwlen : w.length = e.word.len := get_length hget
  have hnd : order.Nodup := hperm.nodup_iff.mpr lettersList_nodup
  have hfull : w.countP (fun x => decide (x ∈ order)) = w.length := by
    rw [List.countP_eq_length]
    intro x hx
    simp only [decide_eq_true_eq]
    exact hperm.mem_iff.mpr (mem_lettersList.mpr (hlow x hx))
  obtain ⟨e2, tr, hplay, hlen, hsum, hmap, hword⟩ :=
    playOrder_spec wl w e.word hget order e 0 rfl hnd (by omega)
  rw [hwlen] at hplay hsum
  refine ⟨e2, tr, hplay, ?_, by simpa using hsum, hmap, hword⟩
  have := hperm.length_eq
  rw [lettersList_length] at this
  omega

lemma playOrder_trace_prefix (wl : WordList) (order : List Nat) :
    ∀ (L : Nat) (e e2 : HonestExecutioner) (g : Nat) (tr : List (Nat × List Nat)),
      playOrder wl L order e g = some (e2, tr) → tr.map Prod.fst = order.take tr.length := by
  induction order with
  | nil =>
    intro L e e2 g tr h
    rw [playOrder] at h
    by_cases hdone : L ≤ g
    · rw [if_pos hdone] at h
      by_cases heq : g = L
      · rw [if_pos heq] at h
        cases h
        simp
      · rw [if_neg heq] at h
        exact Option.noConfusion h
    · rw [if_neg hdone] at h
      exact Option.noConfusion h
  | cons c rest ih =>
    intro L e e2 g tr h
    rw [playOrder] at h
    by_cases hdone : L ≤ g
    · rw [if_pos hdone] at h
      by_cases heq : g = L
      · rw [if_pos heq] at h
        cases h
        simp
      · rw [if_neg heq] at h
        exact Option.noConfusion h
    · rw [if_neg hdone] at h
      cases hguess : e.guess wl c with
      | none =>
        simp only [hguess] at h
        exact Option.noConfusion h
      | some p =>
        obtain ⟨idxs, e'⟩ := p
        simp only [hguess] at h
        cases hrec : playOrder wl L rest e' (g + idxs.length) with
        | none =>
          simp only [hrec] at h
          exact Option.noConfusion h
        | some q =>
          obtain ⟨e'', tr'⟩ := q
          simp only [hrec, Option.some_inj, Prod.mk.injEq] at h
          rcases h with ⟨rfl, rfl⟩
          have ihq := ih L e' e'' (g + idxs.length) tr' hrec
          simp only [List.map_cons, List.length_cons, List.take_succ_cons, ihq]

/-! ### The adaptive strategy's loop body -/

lemma maxAux_mem (f : Nat → Nat) :
    ∀ (ps : List (Nat × Nat)) (acc q : Option (Nat × Nat)), maxAux f acc ps = q →
      q = acc ∨ ∃ p ∈ ps, q = some p
  | [], acc, q, h => Or.inl h.symm
  | p :: ps, acc, q, h => by
    have h' : maxAux f (maxStep f acc p) ps = q := h
    rcases maxAux_mem f ps (maxStep f acc p) q h' with h1 | ⟨p', hp', rfl⟩
    · cases acc with
      | none =>
        rw [show maxStep f none p = some p from rfl] at h1
        exact Or.inr ⟨p, by simp, h1⟩
      | some a =>
        rw [show maxStep f (some a) p = if f a.2 ≤ f p.2 then some p else some a from rfl] at h1
        by_cases hle : f a.2 ≤ f p.2
        · rw [if_pos hle] at h1
          exact Or.inr ⟨p, by simp, h1⟩
        · rw [if_neg hle] at h1
          exact Or.inl h1
    · exact Or.inr ⟨p', by simp [hp'], rfl⟩

lemma maxAux_isSome (f : Nat → Nat) :
    ∀ (ps : List (Nat × Nat)) (a : Nat × Nat), ∃ q, maxAux f (some a) ps = some q
  | [], a => ⟨a, rfl⟩
  | p :: ps, a => by
    show ∃ q, maxAux f (maxStep f (some a) p) ps = some q
    rw [show maxStep f (some a) p = if f a.2 ≤ f p.2 then some p else some a from rfl]
    by_cases hle : f a.2 ≤ f p.2
    · rw [if_pos hle]
      exact maxAux_isSome f ps p
    · rw [if_neg hle]
      exact maxAux_isSome f ps a

lemma maxByKeyLast_some (f : Nat → Nat) (c : Nat) (l : List Nat) :
    ∃ q, maxByKeyLast f (c :: l) = some q := by
  show ∃ q, maxAux f none (c :: l).enum = some q
  rw [List.enum_cons]
  show ∃ q, maxAux f (maxStep f none (0, c)) _ = some q
  rw [show maxStep f none (0, c) = some (0, c) from rfl]
  exact maxAux_isSome f _ (0, c)

lemma maxByKeyLast_get? (f : Nat → Nat) (l : List Nat) (i g : Nat)
    (h : maxByKeyLast f l = some (i, g)) : l.get? i = some g := by
  rcases maxAux_mem f l.enum none (some (i, g)) h with h1 | ⟨p, hp, hq⟩
  · exact Option.noConfusion h1
  · have hmem := List.mem_enum_iff_getElem?.mp hp
    have hpq : p = (i, g) := (Option.some_injective _ hq).symm
    rw [hpq] at hmem
    rw [List.get?_eq_getElem?]
    exact hmem

lemma swapRemove_perm_erase :
    ∀ (l : List Nat) (i g : Nat), l.Nodup → l.get? i = some g →
      (swapRemove l i).Perm (l.erase g)
  | [], i, g, _, h => by
    rw [List.get?_eq_getElem?] at h
    simp at h
  | [x], 0, g, _, h => by
    have hg : g = x := by
      rw [List.get?_eq_getElem?] at h
      simp at h
      exact h.symm
    rw [hg]
    show ((([x].set 0 x).dropLast)).Perm ([x].erase x)
    simp
  | [x], i + 1, g, _, h => by
    rw [List.get?_eq_getElem?] at h
    simp at h
  | x :: y :: tl, 0, g, hnd, h => by
    have hg : g = x := by
      rw [List.get?_eq_getElem?] at h
      simp at h
      exact h.symm
    rw [hg]
    have hgl := @List.getLast?_eq_getLast_of_ne_nil _ (y :: tl) (by simp)
    unfold swapRemove
    rw [List.getLast?_cons_cons]
    simp only [hgl]
    rw [show (x :: y :: tl).set 0 ((y :: tl).getLast (by simp)) =
        (y :: tl).getLast (by simp) :: y :: tl from rfl]
    rw [List.dropLast_cons_of_ne_nil (by simp), List.erase_cons_head]
    have hP : ((y :: tl).getLast (by simp) :: (y :: tl).dropLast).Perm
        ((y :: tl).dropLast ++ [(y :: tl).getLast (by simp)]) :=
      (List.perm_append_singleton _ _).symm
    have hE : (y :: tl).dropLast ++ [(y :: tl).getLast (by simp)] = y :: tl :=
      List.dropLast_append_getLast (by simp)
    conv_rhs => rw [← hE]
    exact hP
  | x :: y :: tl, i + 1, g, hnd, h => by
    have hrest : (y :: tl).get? i = some g := h
    have hgmem : g ∈ y :: tl := List.get?_mem hrest
    have hxg : x ≠ g := by
      intro hx
      exact (List.nodup_cons.mp hnd).1 (hx ▸ hgmem)
    have ih := swapRemove_perm_erase (y :: tl) i g (List.nodup_cons.mp hnd).2 hrest
    have hgl := @List.getLast?_eq_getLast_of_ne_nil _ (y :: tl) (by simp)
    have hsw : swapRemove (x :: y :: tl) (i + 1) = x :: swapRemove (y :: tl) i := by
      unfold swapRemove
      rw [List.getLast?_cons_cons]
      simp only [hgl]
      rw [show (x :: y :: tl).set (i + 1) ((y :: tl).getLast (by simp)) =
          x :: (y :: tl).set i ((y :: tl).getLast (by simp)) from rfl]
      have hne : (y :: tl).set i ((y :: tl).getLast (by simp)) ≠ [] := by
        intro hc
        have := congrArg List.length hc
        simp at this
      rw [List.dropLast_cons_of_ne_nil hne]
    rw [hsw, List.erase_cons_tail (by simp [hxg])]
    exact ih.cons x

lemma get_of_valid {wl : WordList} (hwf : Wf wl) {L idx : Nat} (hL : 0 < L)
    (hbkt : L - 1 < wl.word_data.length)
    (hidx : idx < (wl.word_data.getD (L - 1) []).length / L) :
    wl.get ⟨L, idx⟩ = some (wordAt wl L idx) ∧ (wordAt wl L idx).length = L ∧
      (∀ b ∈ wordAt wl L idx, isLower b = true) := by
  have hdvd : L ∣ (wl.word_data.getD (L - 1) []).length := by
    have := hwf.1 (L - 1) hbkt
    rwa [Nat.sub_add_cancel hL] at this
  have hb : wl.word_data.get? (L - 1) = some (wl.word_data.getD (L - 1) []) := by
    rw [List.getD_eq_getD_get?]
    cases hg : wl.word_data.get? (L - 1) with
    | none =>
      rw [List.get?_eq_none] at hg
      omega
    | some bucket => rfl
  have hle : L * (idx + 1) ≤ (wl.word_data.getD (L - 1) []).length := by
    have h1 : idx + 1 ≤ (wl.word_data.getD (L - 1) []).length / L := hidx
    calc L * (idx + 1) = (idx + 1) * L := Nat.mul_comm _ _
      _ ≤ (wl.word_data.getD (L - 1) []).length / L * L :=
          Nat.mul_le_mul_right _ h1
      _ ≤ (wl.word_data.getD (L - 1) []).length := Nat.div_mul_le_self _ _
  have hget : wl.get ⟨L, idx⟩ =
      some (((wl.word_data.getD (L - 1) []).drop (L * idx)).take L) := by
    rw [get_eq_some_iff]
    exact ⟨hL, _, hb, hle, rfl⟩
  have hwa : wordAt wl L idx = ((wl.word_data.getD (L - 1) []).drop (L * idx)).take L := by
    rw [wordAt, hget]
    rfl
  refine ⟨by rw [hget, hwa], ?_, ?_⟩
  · rw [hwa]
    rw [Nat.mul_succ] at hle
    simp only [List.length_take, List.length_drop]
    omega
  · intro b hbmem
    rw [hwa] at hbmem
    exact hwf.2.1 (L - 1) hbkt b (List.drop_subset _ _ (List.take_subset _ _ hbmem))

lemma contains_iff_mem {l : List Nat} {a : Nat} : l.contains a = true ↔ a ∈ l := by
  show l.elem a = true ↔ a ∈ l
  exact List.elem_iff

lemma bool_beq_decide (P : Prop) [Decidable P] (b : Bool) :
    ((decide P == b) = true) ↔ (P ↔ b = true) := by
  cases b <;> by_cases h : P <;> simp [h]

lemma matchesSig_iff {wl : WordList} {L idx : Nat} {w : List Nat}
    (hget : wl.get ⟨L, idx⟩ = some w) (g : Nat) (idxs : List Nat) :
    matchesSig wl L idx g idxs = true ↔
      ∀ p, (hp : p < w.length) → (w[p] = g ↔ p ∈ idxs) := by
  unfold matchesSig
  rw [hget, List.all_eq_true, List.forall_mem_enum]
  constructor
  · intro h p hp
    have hpt := h p hp
    rw [bool_beq_decide] at hpt
    exact hpt.trans contains_iff_mem
  · intro h i hi
    rw [bool_beq_decide]
    exact (h i hi).trans contains_iff_mem.symm

lemma mem_positionsOf_getElem {w : List Nat} {c p : Nat} (hp : p < w.length) :
    p ∈ positionsOf w c ↔ w[p] = c := by
  rw [mem_positionsOf]
  constructor
  · rintro ⟨h1, h2⟩
    rw [← List.getD_eq_getElem w 0 hp]
    exact h2
  · intro h
    exact ⟨hp, by rw [List.getD_eq_getElem w 0 hp]; exact h⟩

lemma positionsOf_congr {w1 w2 : List Nat} (hlen : w1.length = w2.length) (c : Nat)
    (h : ∀ p, (hp1 : p < w1.length) → (hp2 : p < w2.length) → (w1[p] = c ↔ w2[p] = c)) :
    positionsOf w1 c = positionsOf w2 c := by
  unfold positionsOf
  rw [hlen]
  apply List.filter_congr
  intro i hi
  rw [List.mem_range] at hi
  rw [List.getD_eq_getElem w1 0 (by omega), List.getD_eq_getElem w2 0 hi]
  rw [Bool.eq_iff_iff]
  simp only [beq_iff_eq]
  exact h i (by omega) hi

lemma epicStep_cases (wl : WordList) (L : Nat) (s s' : EpicState)
    (h : epicStep wl L s = some s') :
    ∃ i g idxs e', maxByKeyLast (letterFreq wl L s.candidates) s.remaining = some (i, g) ∧
      s.exec.guess wl g = some (idxs, e') ∧
      s' = ⟨s.candidates.filter (fun idx => matchesSig wl L idx g idxs = true),
            swapRemove s.remaining i, e', s.trace ++ [(g, idxs)]⟩ ∧
      (∀ idx ∈ s.candidates, candOkB wl L idx = true) := by
  unfold epicStep at h
  by_cases hok : ∀ idx ∈ s.candidates, candOkB wl L idx = true
  · rw [if_pos hok] at h
    cases hmax : maxByKeyLast (letterFreq wl L s.candidates) s.remaining with
    | none =>
      simp only [hmax] at h
      exact Option.noConfusion h
    | some p =>
      obtain ⟨i, g⟩ := p
      simp only [hmax] at h
      cases hguess : s.exec.guess wl g with
      | none =>
        simp only [hguess] at h
        exact Option.noConfusion h
      | some q =>
        obtain ⟨idxs, e'⟩ := q
        simp only [hguess] at h
        exact ⟨i, g, idxs, e', rfl, hguess, (Option.some_injective _ h).symm, hok⟩
  · rw [if_neg hok] at h
    exact Option.noConfusion h

lemma epicStep_subset (wl : WordList) (L : Nat) (s s' : EpicState)
    (h : epicStep wl L s = some s') : s'.candidates ⊆ s.candidates := by
  obtain ⟨i, g, idxs, e', -, -, rfl, -⟩ := epicStep_cases wl L s s' h
  exact Finset.filter_subset _ _

lemma epicStep_keeps_secret (wl : WordList) (L secretIdx : Nat) (sw : List Nat)
    (hget : wl.get ⟨L, secretIdx⟩ = some sw) (s s' : EpicState)
    (hword : s.exec.word = ⟨L, secretIdx⟩) (hmem : secretIdx ∈ s.candidates)
    (h : epicStep wl L s = some s') : secretIdx ∈ s'.candidates := by
  obtain ⟨i, g, idxs, e', hmax, hguess, rfl, hok⟩ := epicStep_cases wl L s s' h
  have hidxs : idxs = positionsOf sw g := by
    unfold HonestExecutioner.guess at hguess
    rw [hword, hget] at hguess
    simp only [Option.some_inj, Prod.mk.injEq] at hguess
    exact hguess.1.symm
  subst hidxs
  simp only [Finset.mem_filter]
  refine ⟨hmem, ?_⟩
  rw [matchesSig_iff hget]
  intro p hp
  exact (mem_positionsOf_getElem hp).symm

lemma epicStep_inv (wl : WordList) (hwf : Wf wl) (L secretIdx : Nat) (hL : 0 < L)
    (hbkt : L - 1 < wl.word_data.length)
    (hsec : secretIdx < (wl.word_data.getD (L - 1) []).length / L)
    (s : EpicState)
    (hinv : EpicInv wl L ((wl.word_data.getD (L - 1) []).length / L) secretIdx s)
    (hne : s.remaining ≠ []) :
    ∃ s', epicStep wl L s = some s' ∧
      EpicInv wl L ((wl.word_data.getD (L - 1) []).length / L) secretIdx s' ∧
      s'.candidates ⊆ s.candidates ∧
      s'.remaining.length + 1 = s.remaining.length ∧
      s'.trace.length = s.trace.length + 1 := by
  obtain ⟨hcand, hmem, hnd, hlowrem, hlen26, hfilt, hword⟩ := hinv
  have hvalid := fun idx (hidx : idx ∈ s.candidates) =>
    get_of_valid hwf hL hbkt (hcand idx hidx)
  obtain ⟨hgets, hlens, hlows⟩ := get_of_valid hwf hL hbkt hsec
  have hok : ∀ idx ∈ s.candidates, candOkB wl L idx = true := by
    intro idx hidx
    obtain ⟨hg, -, hlow⟩ := hvalid idx hidx
    unfold candOkB
    rw [hg, List.all_eq_true]
    exact hlow
  obtain ⟨⟨i, g⟩, hmax⟩ : ∃ q,
      maxByKeyLast (letterFreq wl L s.candidates) s.remaining = some q := by
    cases hrem : s.remaining with
    | nil => exact absurd hrem hne
    | cons c lrest => exact maxByKeyLast_some _ c lrest
  have hgget : s.remaining.get? i = some g := maxByKeyLast_get? _ _ _ _ hmax
  have hgmem : g ∈ s.remaining := List.get?_mem hgget
  have hguess : s.exec.guess wl g = some (positionsOf (wordAt wl L secretIdx) g,
      ⟨s.exec.word, s.exec.wrong_guesses +
        if (positionsOf (wordAt wl L secretIdx) g).isEmpty then 1 else 0⟩) := by
    unfold HonestExecutioner.guess
    rw [hword, hgets]
  have hstep : epicStep wl L s = some
      ⟨s.candidates.filter (fun idx =>
          matchesSig wl L idx g (positionsOf (wordAt wl L secretIdx) g) = true),
        swapRemove s.remaining i,
        ⟨s.exec.word, s.exec.wrong_guesses +
          if (positionsOf (wordAt wl L secretIdx) g).isEmpty then 1 else 0⟩,
        s.trace ++ [(g, positionsOf (wordAt wl L secretIdx) g)]⟩ := by
    unfold epicStep
    rw [if_pos hok]
    simp only [hmax, hguess]
  have hperm := swapRemove_perm_erase s.remaining i g hnd hgget
  have hlenrem : (swapRemove s.remaining i).length + 1 = s.remaining.length := by
    rw [hperm.length_eq, List.length_erase_of_mem hgmem]
    have := List.length_pos.mpr hne
    omega
  refine ⟨_, hstep, ⟨?_, ?_, ?_, ?_, ?_, ?_, ?_⟩, Finset.filter_subset _ _, hlenrem, by simp⟩
  · intro idx hidx
    exact hcand idx (Finset.filter_subset _ _ hidx)
  · simp only [Finset.mem_filter]
    refine ⟨hmem, ?_⟩
    rw [matchesSig_iff hgets]
    intro p hp
    exact (mem_positionsOf_getElem hp).symm
  · exact hperm.nodup_iff.mpr (hnd.erase g)
  · intro c hc
    exact hlowrem c (List.erase_subset _ _ (hperm.mem_iff.mp hc))
  · simp only [List.length_append, List.length_cons, List.length_nil]
    omega
  · intro idx hidx c hclower hcnot
    obtain ⟨hidxold, hsig⟩ := Finset.mem_filter.mp hidx
    obtain ⟨hgid, hlenid, -⟩ := hvalid idx hidxold
    by_cases hcg : c = g
    · subst hcg
      apply positionsOf_congr (by omega)
      intro p hp1 hp2
      rw [matchesSig_iff hgid] at hsig
      exact (hsig p hp1).trans (mem_positionsOf_getElem hp2)
    · refine hfilt idx hidxold c hclower ?_
      intro hcrem
      exact hcnot (hperm.mem_iff.mpr ((hnd.mem_erase_iff).mpr ⟨hcg, hcrem⟩))
  · exact hword

lemma epicInv_small (wl : WordList) (hwf : Wf wl) (L secretIdx : Nat) (hL : 0 < L)
    (hbkt : L - 1 < wl.word_data.length)
    (hsec : secretIdx < (wl.word_data.getD (L - 1) []).length / L)
    (huniq : ∀ idx < (wl.word_data.getD (L - 1) []).length / L,
        wordAt wl L idx = wordAt wl L secretIdx → idx = secretIdx)
    (s : EpicState)
    (hinv : EpicInv wl L ((wl.word_data.getD (L - 1) []).length / L) secretIdx s)
    (hrem : s.remaining.length ≤ 1) :
    ∀ idx ∈ s.candidates, idx = secretIdx := by
  obtain ⟨hcand, hmem, hnd, hlowrem, hlen26, hfilt, hword⟩ := hinv
  intro idx hidx
  obtain ⟨hgid, hlenid, hlowid⟩ := get_of_valid hwf hL hbkt (hcand idx hidx)
  obtain ⟨hgets, hlens, hlows⟩ := get_of_valid hwf hL hbkt hsec
  apply huniq idx (hcand idx hidx)
  apply List.ext_getElem (by omega)
  intro p hp1 hp2
  by_contra hne
  have hxlow : isLower ((wordAt wl L idx)[p]) = true :=
    hlowid _ (List.getElem_mem hp1)
  have hylow : isLower ((wordAt wl L secretIdx)[p]) = true :=
    hlows _ (List.getElem_mem hp2)
  have honeside : (wordAt wl L idx)[p] ∉ s.remaining ∨
      (wordAt wl L secretIdx)[p] ∉ s.remaining := by
    by_contra hc
    push_neg at hc
    obtain ⟨hx, hy⟩ := hc
    cases hrm : s.remaining with
    | nil =>
      rw [hrm] at hx
      exact absurd hx (List.not_mem_nil _)
    | cons a rest =>
      have hrest : rest = [] := by
        rw [hrm] at hrem
        simp only [List.length_cons] at hrem
        exact List.eq_nil_of_length_eq_zero (by omega)
      rw [hrm, hrest] at hx hy
      have hxa := List.mem_singleton.mp hx
      have hya := List.mem_singleton.mp hy
      exact hne (by rw [hxa, hya])
  rcases honeside with hxr | hyr
  · have hpos := hfilt idx hidx _ hxlow hxr
    have hpin : p ∈ positionsOf (wordAt wl L idx) ((wordAt wl L idx)[p]) :=
      (mem_positionsOf_getElem hp1).mpr rfl
    rw [hpos] at hpin
    exact hne ((mem_positionsOf_getElem hp2).mp hpin).symm
  · have hpos := hfilt idx hidx _ hylow hyr
    have hpin : p ∈ positionsOf (wordAt wl L secretIdx) ((wordAt wl L secretIdx)[p]) :=
      (mem_positionsOf_getElem hp2).mpr rfl
    rw [← hpos] at hpin
    exact hne ((mem_positionsOf_getElem hp1).mp hpin)

lemma epicLoop_run (wl : WordList) (hwf : Wf wl) (L secretIdx : Nat) (hL : 0 < L)
    (hbkt : L - 1 < wl.word_data.length)
    (hsec : secretIdx < (wl.word_data.getD (L - 1) []).length / L)
    (huniq : ∀ idx < (wl.word_data.getD (L - 1) []).length / L,
        wordAt wl L idx = wordAt wl L secretIdx → idx = secretIdx) :
    ∀ (fuel : Nat) (s : EpicState),
      EpicInv wl L ((wl.word_data.getD (L - 1) []).length / L) secretIdx s →
      s.remaining.length + 1 ≤ fuel → 1 ≤ s.remaining.length →
      ∃ s', epicLoop wl L fuel s = some s' ∧ s'.candidates = {secretIdx} ∧
        1 ≤ s'.remaining.length ∧
        EpicInv wl L ((wl.word_data.getD (L - 1) []).length / L) secretIdx s'
  | 0, s, _, hfuel, hrem => by omega
  | fuel + 1, s, hinv, hfuel, hrem => by
    by_cases hcard : s.candidates.card ≤ 1
    · have hpos : 0 < s.candidates.card := Finset.card_pos.mpr ⟨secretIdx, hinv.2.1⟩
      have hcard1 : s.candidates.card = 1 := by omega
      obtain ⟨a, ha⟩ := Finset.card_eq_one.mp hcard1
      have haeq : secretIdx = a := by
        have := hinv.2.1
        rw [ha] at this
        exact Finset.mem_singleton.mp this
      refine ⟨s, ?_, by rw [ha, haeq], hrem, hinv⟩
      rw [epicLoop, if_pos hcard, if_pos hcard1]
    · have hrem2 : 2 ≤ s.remaining.length := by
        by_contra hsmall
        have hall := epicInv_small wl hwf L secretIdx hL hbkt hsec huniq s hinv (by omega)
        have hsub : s.candidates ⊆ {secretIdx} := fun x hx =>
          Finset.mem_singleton.mpr (hall x hx)
        have := Finset.card_le_card hsub
        rw [Finset.card_singleton] at this
        omega
      have hne : s.remaining ≠ [] := by
        intro hc
        rw [hc] at hrem2
        simp at hrem2
      obtain ⟨s', hstep, hinv', hsub, hlenr, htr⟩ :=
        epicStep_inv wl hwf L secretIdx hL hbkt hsec s hinv hne
      obtain ⟨s'', hloop, hsing, hrem'', hinv''⟩ :=
        epicLoop_run wl hwf L secretIdx hL hbkt hsec huniq fuel s' hinv'
          (by omega) (by omega)
      refine ⟨s'', ?_, hsing, hrem'', hinv''⟩
      rw [epicLoop, if_neg hcard]
      simp only [hstep]
      exact hloop

lemma epicPlay_spec (wl : WordList) (secret : Word) (hwf : Wf wl)
    (hv : ValidHandle wl secret)
    (huniq : ∀ idx < (wl.word_data.getD (secret.len - 1) []).length / secret.len,
        wordAt wl secret.len idx = wordAt wl secret.len secret.idx → idx = secret.idx) :
    ∃ s', epicPlay wl (HonestExecutioner.init secret) = some s' ∧
      s'.candidates = {secret.idx} ∧ s'.trace.length ≤ 25 ∧
      EpicInv wl secret.len ((wl.word_data.getD (secret.len - 1) []).length / secret.len)
        secret.idx s' := by
  obtain ⟨hv1, hv2, hv3⟩ := hv
  have hcount : wl.count_with_length (HonestExecutioner.init secret).word.len =
      some ((wl.word_data.getD (secret.len - 1) []).length / secret.len) := by
    show wl.count_with_length secret.len = _
    rw [count_with_length_eq wl secret.len (by omega), if_pos (by omega)]
  have hinv0 : EpicInv wl secret.len
      ((wl.word_data.getD (secret.len - 1) []).length / secret.len) secret.idx
      ⟨Finset.range ((wl.word_data.getD (secret.len - 1) []).length / secret.len),
        lettersList, HonestExecutioner.init secret, []⟩ := by
    refine ⟨?_, ?_, lettersList_nodup, ?_, ?_, ?_, rfl⟩
    · intro idx hidx
      exact Finset.mem_range.mp hidx
    · exact Finset.mem_range.mpr hv3
    · intro c hc
      exact mem_lettersList.mp hc
    · rw [lettersList_length]
      rfl
    · intro idx hidx c hclower hcrem
      exact absurd (mem_lettersList.mpr hclower) hcrem
  obtain ⟨s', hloop, hsing, hrem', hinv'⟩ :=
    epicLoop_run wl hwf secret.len secret.idx (by omega) (by omega) hv3 huniq 27
      _ hinv0 (by rw [lettersList_length]) (by rw [lettersList_length]; omega)
  refine ⟨s', ?_, hsing, ?_, hinv'⟩
  · unfold epicPlay
    simp only [hcount]
    exact hloop
  · have := hinv'.2.2.2.2.1
    omega

lemma OPTIMAL_ORDER_perm : OPTIMAL_ORDER.Perm lettersList := by decide

/-- C1 (amended): over any well-formed store and valid secret handle
(duplicate spellings included), the adaptive strategy's candidate set never
grows at a guess and the secret's index always survives an honest answer;
and, provided the secret's spelling occurs only once among stored words of
its length, play succeeds with the candidate set equal to the singleton of
the secret's index after at most 25 guesses. (With a duplicated spelling the
set never reaches size 1 and the loop aborts after exhausting all 26
letters — see the counterexample.) -/
theorem epic_candidate_invariants (wl : WordList) (secret : Word) (hwf : Wf wl)
    (hv : ValidHandle wl secret) :
    (∀ s s', epicStep wl secret.len s = some s' → s'.candidates ⊆ s.candidates) ∧
    (∀ s s', s.exec.word = ⟨secret.len, secret.idx⟩ → secret.idx ∈ s.candidates →
       epicStep wl secret.len s = some s' → secret.idx ∈ s'.candidates) ∧
    ((∀ idx < (wl.word_data.getD (secret.len - 1) []).length / secret.len,
        wordAt wl secret.len idx = wordAt wl secret.len secret.idx → idx = secret.idx) →
      ∃ s', epicPlay wl (HonestExecutioner.init secret) = some s' ∧
        s'.candidates = {secret.idx} ∧ s'.trace.length ≤ 25) := by
  obtain ⟨hv1, hv2, hv3⟩ := hv
  refine ⟨fun s s' h => epicStep_subset wl secret.len s s' h, ?_, ?_⟩
  · intro s s' hword hmem h
    obtain ⟨hgets, -, -⟩ := get_of_valid hwf (by omega) hv2 hv3
    exact epicStep_keeps_secret wl secret.len secret.idx _ hgets s s' hword hmem h
  · intro huniq
    obtain ⟨s', hplay, hsing, htr, -⟩ := epicPlay_spec wl secret hwf ⟨hv1, hv2, hv3⟩ huniq
    exact ⟨s', hplay, hsing, htr⟩

/-- Witness for C1's amended theorem at the `{cat, car, bat}` store with
secret "cat", with the uniqueness proviso of the third part discharged
concretely. -/
theorem epic_candidate_invariants_witness :
    (∀ s s', epicStep store3 (Word.mk 3 0).len s = some s' → s'.candidates ⊆ s.candidates) ∧
    (∀ s s', s.exec.word = ⟨(Word.mk 3 0).len, (Word.mk 3 0).idx⟩ →
       (Word.mk 3 0).idx ∈ s.candidates →
       epicStep store3 (Word.mk 3 0).len s = some s' → (Word.mk 3 0).idx ∈ s'.candidates) ∧
    (∃ s', epicPlay store3 (HonestExecutioner.init ⟨3, 0⟩) = some s' ∧
       s'.candidates = {(Word.mk 3 0).idx} ∧ s'.trace.length ≤ 25) :=
  ⟨(epic_candidate_invariants store3 ⟨3, 0⟩ (by decide) (by decide)).1,
   (epic_candidate_invariants store3 ⟨3, 0⟩ (by decide) (by decide)).2.1,
   (epic_candidate_invariants store3 ⟨3, 0⟩ (by decide) (by decide)).2.2 (by decide)⟩

/-- C1 counterexample: the store holding the spelling "a" twice. Both
length-1 words are identical, the candidate set is stuck at size 2, and
`EpicStrategy::play` fails (the `unwrap` of the letter choice panics after
all 26 letters are used up) instead of reaching a singleton within 25
guesses. -/
theorem epic_duplicate_counterexample :
    store2.count_with_length 1 = some 2 ∧
    wordAt store2 1 0 = wordAt store2 1 1 ∧
    epicPlay store2 (HonestExecutioner.init ⟨1, 0⟩) = none := by
  exact ⟨by decide, by decide, by decide⟩

/-- C2 (amended): against an honest executioner whose secret word is stored
and lowercase, the random strategy (for any shuffle outcome) and the
frequency-table strategy terminate within 26 guesses with the occurrence
lengths summing exactly to `word_len`; the adaptive strategy (when the
secret's spelling is unique among stored words of its length) terminates
within 25 guesses, but its occurrence sum can fall short of `word_len` — see
the counterexample. -/
theorem play_termination_and_occurrences :
    (∀ (wl : WordList) (e : HonestExecutioner) (w shuffled : List Nat),
      wl.get e.word = some w → (∀ b ∈ w, isLower b = true) → shuffled.Perm lettersList →
      ∃ e2 tr, randomPlay shuffled wl e = some (e2, tr) ∧ tr.length ≤ 26 ∧
        (tr.map (fun p => p.2.length)).sum = e.word.len) ∧
    (∀ (R : Type) (r : R) (wl : WordList) (e : HonestExecutioner) (w : List Nat),
      wl.get e.word = some w → (∀ b ∈ w, isLower b = true) →
      ∃ e2 tr, simplePlay R r wl e = some (e2, tr) ∧ tr.length ≤ 26 ∧
        (tr.map (fun p => p.2.length)).sum = e.word.len) ∧
    (∀ (wl : WordList) (secret : Word), Wf wl → ValidHandle wl secret →
      (∀ idx < (wl.word_data.getD (secret.len - 1) []).length / secret.len,
        wordAt wl secret.len idx = wordAt wl secret.len secret.idx → idx = secret.idx) →
      ∃ s', epicPlay wl (HonestExecutioner.init secret) = some s' ∧
        s'.trace.length ≤ 25) := by
  refine ⟨?_, ?_, ?_⟩
  · intro wl e w shuffled hget hlow hperm
    obtain ⟨e2, tr, hp, h26, hsum, -, -⟩ :=
      playOrder_perm wl e w hget hlow shuffled.reverse (shuffled.reverse_perm.trans hperm)
    exact ⟨e2, tr, hp, h26, hsum⟩
  · intro R r wl e w hget hlow
    obtain ⟨e2, tr, hp, h26, hsum, -, -⟩ :=
      playOrder_perm wl e w hget hlow OPTIMAL_ORDER OPTIMAL_ORDER_perm
    exact ⟨e2, tr, hp, h26, hsum⟩
  · intro wl secret hwf hv huniq
    obtain ⟨s', hplay, -, htr, -⟩ := epicPlay_spec wl secret hwf hv huniq
    exact ⟨s', hplay, htr⟩

/-- Witness for C2's amended theorem: the store holding only "aa" for the
random strategy (reversed-alphabet shuffle, so 'a' is guessed first) and the
frequency-table strategy, and the `{cat, car, bat}` store with secret "cat"
for the adaptive strategy. -/
theorem play_termination_and_occurrences_witness :
    (∃ e2 tr, randomPlay lettersList.reverse storeA2 (HonestExecutioner.init ⟨2, 0⟩) =
        some (e2, tr) ∧
      tr.length ≤ 26 ∧ (tr.map (fun p => p.2.length)).sum =
        (HonestExecutioner.init (⟨2, 0⟩ : Word)).word.len) ∧
    (∃ e2 tr, simplePlay Unit () storeA2 (HonestExecutioner.init ⟨2, 0⟩) = some (e2, tr) ∧
      tr.length ≤ 26 ∧ (tr.map (fun p => p.2.length)).sum =
        (HonestExecutioner.init (⟨2, 0⟩ : Word)).word.len) ∧
    (∃ s', epicPlay store3 (HonestExecutioner.init ⟨3, 0⟩) = some s' ∧
      s'.trace.length ≤ 25) :=
  ⟨play_termination_and_occurrences.1 storeA2 (HonestExecutioner.init ⟨2, 0⟩)
      [97, 97] lettersList.reverse (by decide) (by decide) (List.reverse_perm lettersList),
   play_termination_and_occurrences.2.1 Unit () storeA2 (HonestExecutioner.init ⟨2, 0⟩)
      [97, 97] (by decide) (by decide),
   play_termination_and_occurrences.2.2 store3 ⟨3, 0⟩ (by decide) (by decide) (by decide)⟩

/-- C2 counterexample: a store holding only the single word "a". The
adaptive strategy's loop exits immediately with a singleton candidate set,
making zero `guess` calls, so the occurrence lengths sum to 0 while
`word_len()` is 1. -/
theorem epic_occurrence_sum_counterexample :
    (epicPlay store1 (HonestExecutioner.init ⟨1, 0⟩)).map
        (fun s => (s.trace.map (fun p => p.2.length)).sum) = some 0 ∧
    (HonestExecutioner.init (⟨1, 0⟩ : Word)).word.len = 1 ∧ (0 : Nat) ≠ 1 := by
  exact ⟨by decide, by decide, by decide⟩

/-- C4: in the store containing exactly "cat", "car", "bat", guessing 'a'
answers `[1]` for each of the three as secret; the adaptive strategy's first
guess is 'a' and does not shrink the candidate set (for any of the three
secrets); and the full adaptive play for secret "cat" ends with 0 wrong
guesses. -/
theorem concrete_cat_car_bat :
    ((HonestExecutioner.init ⟨3, 0⟩).guess store3 97).map (fun p => p.1) = some [1] ∧
    ((HonestExecutioner.init ⟨3, 1⟩).guess store3 97).map (fun p => p.1) = some [1] ∧
    ((HonestExecutioner.init ⟨3, 2⟩).guess store3 97).map (fun p => p.1) = some [1] ∧
    (epicStep store3 3 ⟨Finset.range 3, lettersList, HonestExecutioner.init ⟨3, 0⟩, []⟩).map
        (fun s => (s.candidates, s.trace)) = some (Finset.range 3, [(97, [1])]) ∧
    (epicStep store3 3 ⟨Finset.range 3, lettersList, HonestExecutioner.init ⟨3, 1⟩, []⟩).map
        (fun s => s.candidates) = some (Finset.range 3) ∧
    (epicStep store3 3 ⟨Finset.range 3, lettersList, HonestExecutioner.init ⟨3, 2⟩, []⟩).map
        (fun s => s.candidates) = some (Finset.range 3) ∧
    (epicPlay store3 (HonestExecutioner.init ⟨3, 0⟩)).map (fun s => s.exec.wrong_guesses) =
      some 0 := by
  exact ⟨by decide, by decide, by decide, by decide, by decide, by decide, by decide⟩

/-- C8: the frequency-table strategy is oblivious to the randomness source —
its result (final executioner state, hence wrong-guess count, and full guess
trace) is identical for any two generators of any types — and the letters it
guesses are, in order, a prefix of the fixed order e, i, a, o, r, n, t, s, l,
c, u, p, m, d, h, y, g, b, f, v, k, w, z, x, q, j. -/
theorem simple_play_fixed_order :
    (∀ (R1 R2 : Type) (r1 : R1) (r2 : R2) (wl : WordList) (e : HonestExecutioner),
      simplePlay R1 r1 wl e = simplePlay R2 r2 wl e) ∧
    OPTIMAL_ORDER = [101, 105, 97, 111, 114, 110, 116, 115, 108, 99, 117, 112, 109, 100,
      104, 121, 103, 98, 102, 118, 107, 119, 122, 120, 113, 106] ∧
    (∀ (R : Type) (r : R) (wl : WordList) (e e2 : HonestExecutioner)
      (tr : List (Nat × List Nat)), simplePlay R r wl e = some (e2, tr) →
      tr.map Prod.fst = OPTIMAL_ORDER.take tr.length) := by
  refine ⟨fun R1 R2 r1 r2 wl e => rfl, rfl, ?_⟩
  intro R r wl e e2 tr h
  exact playOrder_trace_prefix wl OPTIMAL_ORDER e.word.len e e2 0 tr h

/-- Witness for C8: two runs with different generator types on the store
holding only "aa" coincide, and the concrete trace of that run (e and i miss,
a reveals both positions) guesses a prefix of the fixed order. -/
theorem simple_play_fixed_order_witness :
    simplePlay Unit () storeA2 (HonestExecutioner.init ⟨2, 0⟩) =
      simplePlay Bool true storeA2 (HonestExecutioner.init ⟨2, 0⟩) ∧
    List.map Prod.fst [(101, ([] : List Nat)), (105, []), (97, [0, 1])] =
      OPTIMAL_ORDER.take
        (List.length [(101, ([] : List Nat)), (105, []), (97, [0, 1])]) :=
  ⟨simple_play_fixed_order.1 Unit Bool () true storeA2 (HonestExecutioner.init ⟨2, 0⟩),
   simple_play_fixed_order.2.2 Unit () storeA2 (HonestExecutioner.init ⟨2, 0⟩)
     ⟨⟨2, 0⟩, 2⟩ [(101, []), (105, []), (97, [0, 1])] (by decide)⟩

end WeirdGame
